import Mathlib

/-!
# Verification of the TaskManagementAPI suggestion engine

Shallow embedding of the `TaskSuggestionEngine` class and the
`/tasks/suggestions/smart` endpoint handler from `src/main.py`.

Modelling conventions:
* Python strings are Lean `String` (a structure over `List Char`); the
  character-level operations of the source (`str.lower`, `re.sub`,
  `str.split`, `str.capitalize`) are modelled by explicit executable
  functions over `String.data`, restricted to the ASCII character classes
  the source's regular expression classes denote.
* The task store is a snapshot `TaskStore` holding the ordered list of
  non-null titles and the ordered list of non-null descriptions, exactly
  the two projections `generate_suggestions` queries.
* `Counter(all_keywords).most_common(5)` is modelled by a stable
  insertion sort of the distinct keywords (taken in first-occurrence
  order, which is the `Counter` dict insertion order) by descending
  count, followed by `take 5`; `heapq.nlargest` is documented to be
  equivalent to a stable descending sort followed by a prefix.
* Each of the six suggestion templates of the source consists of a fixed
  text followed by a single trailing placeholder, so a template is
  modelled by its fixed text and `template.format(x)` is string append.
* A `TaskSuggestion` record carries exactly one string field
  `suggested_title`, so suggestion lists are modelled as `List String`.
-/

namespace TaskAPI

/-- ASCII reading of the regex class `\w` used in `re.sub(r'[^\w\s]', ' ', ...)`:
letters, digits and underscore. -/
def isWordChar (c : Char) : Bool := c.isAlphanum || c = '_'

/-- Tokenizer modelling Python whitespace split (no separator argument):
split on runs of whitespace, discarding empty tokens.  `cur` holds the
characters of the token currently being read, in reverse order. -/
def wordsAux (cur : List Char) : List Char → List (List Char)
  | [] => if cur.isEmpty then [] else [cur.reverse]
  | c :: cs =>
    if c.isWhitespace then
      if cur.isEmpty then wordsAux [] cs else cur.reverse :: wordsAux [] cs
    else wordsAux (c :: cur) cs

/-- Splitter modelling Python split at a given one-character separator:
splits at every occurrence of `sep`, keeping empty pieces. -/
def splitCharAux (sep : Char) (cur : List Char) : List Char → List (List Char)
  | [] => [cur.reverse]
  | c :: cs =>
    if c = sep then cur.reverse :: splitCharAux sep [] cs
    else splitCharAux sep (c :: cur) cs

/-- Python string capitalization on the character list of an ASCII string:
first character uppercased, the rest lowercased. -/
def capitalize (cs : List Char) : List Char :=
  match cs with
  | [] => []
  | c :: rest => c.toUpper :: rest.map Char.toLower

/-- Python join with a single-space separator. -/
def joinSpace : List String → String
  | [] => ""
  | s :: l => l.foldl (fun acc x => acc ++ " " ++ x) s

/-- The fixed stop-word set of `TaskSuggestionEngine.extract_keywords`. -/
def stop_words : List String :=
  ["the", "and", "for", "with", "are", "was", "were", "been", "have",
   "has", "had", "does", "did", "will", "would", "could", "should"]

/-- The cleaning step of `extract_keywords` — the source applies re.sub with
the pattern class complementary to word characters and whitespace, replacing
by a space, to the lowercased text: lowercase every character, then replace
every character that is neither a word character nor whitespace by a space. -/
def cleanText (text : String) : List Char :=
  (text.data.map Char.toLower).map
    (fun c => if isWordChar c || c.isWhitespace then c else ' ')

/-- Model of `TaskSuggestionEngine.extract_keywords`: empty text short-circuits;
otherwise clean the lowercased text, split on whitespace, and keep the tokens
of length greater than 2 that are not stop words, in order and with
duplicates. -/
def extract_keywords (text : String) : List String :=
  if text = "" then []
  else
    ((wordsAux [] (cleanText text)).map String.mk).filter
      (fun w => decide (2 < w.length) && decide (w ∉ stop_words))

/-- Distinct keywords in order of first occurrence: the key order of
`Counter(all_keywords)` (dict insertion order). -/
def distinctKeys : List String → List String
  | [] => []
  | k :: l => k :: (distinctKeys l).filter (fun x => x != k)

/-- One step of a stable descending insertion sort by `cnt`: insert `a` before
the first element whose count is less than or equal to `cnt a`. -/
def insertDesc (cnt : String → Nat) (a : String) : List String → List String
  | [] => [a]
  | b :: l => if cnt b ≤ cnt a then a :: b :: l else b :: insertDesc cnt a l

/-- Stable insertion sort by descending `cnt` (equal-count elements keep their
input order). -/
def sortDesc (cnt : String → Nat) : List String → List String
  | [] => []
  | a :: l => insertDesc cnt a (sortDesc cnt l)

/-- Model of the keys of `Counter(kws).most_common(5)`: the distinct keywords
stably sorted by descending occurrence count, first five. -/
def most_common_5 (kws : List String) : List String :=
  (sortDesc (fun k => kws.count k) (distinctKeys kws)).take 5

/-- The keyword formatting step of `generate_suggestions`: split the keyword
at hyphens, capitalize each part, and join the parts with single spaces. -/
def formatKeyword (kw : String) : String :=
  joinSpace ((splitCharAux '-' [] kw.data).map (fun cs => String.mk (capitalize cs)))

/-- The six suggestion templates, in source order.  In the source each
template is this fixed text followed by one trailing placeholder, so
substitution is modelled as appending the formatted keyword. -/
def suggestion_templates : List String :=
  ["Follow-up on ", "Finalize ", "Plan next steps for ",
   "Schedule meeting for ", "Prepare report regarding ", "Start working on "]

/-- The inner template loop of `generate_suggestions` for one keyword:
`f` is the formatted keyword, `sugg` the accumulated suggestion list, `gen`
the set of already produced titles (modelled as a list queried by
membership), `made` the count of titles emitted for the current keyword.
Returns the updated `(suggestions, generated_titles)`. -/
def templateLoop (f : String) : List String → List String → List String → Nat →
    List String × List String
  | [], sugg, gen, _ => (sugg, gen)
  | t :: rest, sugg, gen, made =>
    if 3 ≤ made then (sugg, gen)
    else
      if t ++ f ∈ gen then templateLoop f rest sugg gen made
      else templateLoop f rest (sugg ++ [t ++ f]) (gen ++ [t ++ f]) (made + 1)

/-- The outer keyword loop of `generate_suggestions`. -/
def keywordLoop : List String → List String → List String → List String × List String
  | [], sugg, gen => (sugg, gen)
  | kw :: rest, sugg, gen =>
    keywordLoop rest (templateLoop (formatKeyword kw) suggestion_templates sugg gen 0).1
      (templateLoop (formatKeyword kw) suggestion_templates sugg gen 0).2

/-- A snapshot of the task store: the ordered list of non-null titles and the
ordered list of non-null descriptions, as returned by the two queries in
`generate_suggestions`. -/
structure TaskStore where
  titles : List String
  descriptions : List String

/-- The combined keyword sequence: keywords of every title in store order,
then keywords of every description in store order. -/
def all_keywords (store : TaskStore) : List String :=
  (store.titles.map extract_keywords).flatten ++
    (store.descriptions.map extract_keywords).flatten

/-- Model of `TaskSuggestionEngine.generate_suggestions`: the three early returns of
the source (no titles, no keywords, empty `most_common` result), then the
keyword/template loop started with empty accumulators. -/
def generate_suggestions (store : TaskStore) : List String :=
  if store.titles = [] then []
  else if all_keywords store = [] then []
  else if most_common_5 (all_keywords store) = [] then []
  else (keywordLoop (most_common_5 (all_keywords store)) [] []).1

/-- The fixed default suggestions of the `/tasks/suggestions/smart` handler. -/
def default_suggestions : List String :=
  ["Weekly Planning Session", "Project Status Review", "Team Meeting Preparation"]

/-- The `/tasks/suggestions/smart` endpoint handler `get_smart_suggestions`:
engine output, or the three default suggestions when it is empty. -/
def get_smart_suggestions (store : TaskStore) : List String :=
  let s := generate_suggestions store
  if s = [] then default_suggestions else s

/-! ### Unfolding equations for the template loop -/

theorem templateLoop_nil (f : String) (sugg gen : List String) (made : Nat) :
    templateLoop f [] sugg gen made = (sugg, gen) := rfl

theorem templateLoop_cons_stop (f t : String) (rest sugg gen : List String) (made : Nat)
    (h3 : 3 ≤ made) :
    templateLoop f (t :: rest) sugg gen made = (sugg, gen) := by
  simp only [templateLoop]
  rw [if_pos h3]

theorem templateLoop_cons_dup (f t : String) (rest sugg gen : List String) (made : Nat)
    (h3 : ¬ 3 ≤ made) (hdup : t ++ f ∈ gen) :
    templateLoop f (t :: rest) sugg gen made = templateLoop f rest sugg gen made := by
  simp only [templateLoop]
  rw [if_neg h3, if_pos hdup]

theorem templateLoop_cons_new (f t : String) (rest sugg gen : List String) (made : Nat)
    (h3 : ¬ 3 ≤ made) (hdup : t ++ f ∉ gen) :
    templateLoop f (t :: rest) sugg gen made =
      templateLoop f rest (sugg ++ [t ++ f]) (gen ++ [t ++ f]) (made + 1) := by
  simp only [templateLoop]
  rw [if_neg h3, if_neg hdup]

/-! ### Length bounds for the loops -/

theorem templateLoop_length_le (f : String) (ts : List String) :
    ∀ (sugg gen : List String) (made : Nat),
      (templateLoop f ts sugg gen made).1.length ≤ sugg.length + (3 - made) := by
  induction ts with
  | nil => intro sugg gen made; simp [templateLoop_nil]
  | cons t rest ih =>
    intro sugg gen made
    by_cases h3 : 3 ≤ made
    · simp [templateLoop_cons_stop f t rest sugg gen made h3]
    · by_cases hdup : t ++ f ∈ gen
      · rw [templateLoop_cons_dup f t rest sugg gen made h3 hdup]
        exact ih sugg gen made
      · rw [templateLoop_cons_new f t rest sugg gen made h3 hdup]
        have h := ih (sugg ++ [t ++ f]) (gen ++ [t ++ f]) (made + 1)
        simp only [List.length_append, List.length_cons, List.length_nil] at h
        omega

theorem templateLoop_length_mono (f : String) (ts : List String) :
    ∀ (sugg gen : List String) (made : Nat),
      sugg.length ≤ (templateLoop f ts sugg gen made).1.length := by
  induction ts with
  | nil => intro sugg gen made; simp [templateLoop_nil]
  | cons t rest ih =>
    intro sugg gen made
    by_cases h3 : 3 ≤ made
    · simp [templateLoop_cons_stop f t rest sugg gen made h3]
    · by_cases hdup : t ++ f ∈ gen
      · rw [templateLoop_cons_dup f t rest sugg gen made h3 hdup]
        exact ih sugg gen made
      · rw [templateLoop_cons_new f t rest sugg gen made h3 hdup]
        have h := ih (sugg ++ [t ++ f]) (gen ++ [t ++ f]) (made + 1)
        simp only [List.length_append, List.length_cons, List.length_nil] at h
        omega

theorem keywordLoop_length_le (ks : List String) :
    ∀ sugg gen : List String,
      (keywordLoop ks sugg gen).1.length ≤ sugg.length + 3 * ks.length := by
  induction ks with
  | nil => intro sugg gen; simp [keywordLoop]
  | cons k rest ih =>
    intro sugg gen
    simp only [keywordLoop]
    have h1 := templateLoop_length_le (formatKeyword k) suggestion_templates sugg gen 0
    have h2 := ih (templateLoop (formatKeyword k) suggestion_templates sugg gen 0).1
      (templateLoop (formatKeyword k) suggestion_templates sugg gen 0).2
    simp only [List.length_cons]
    omega

theorem keywordLoop_length_mono (ks : List String) :
    ∀ sugg gen : List String, sugg.length ≤ (keywordLoop ks sugg gen).1.length := by
  induction ks with
  | nil => intro sugg gen; simp [keywordLoop]
  | cons k rest ih =>
    intro sugg gen
    simp only [keywordLoop]
    exact le_trans (templateLoop_length_mono (formatKeyword k) suggestion_templates sugg gen 0)
      (ih _ _)

/-! ### The produced-title set mirrors the suggestion list and stays duplicate-free -/

theorem templateLoop_invariant (f : String) (ts : List String) :
    ∀ (sugg : List String) (made : Nat), sugg.Nodup →
      (templateLoop f ts sugg sugg made).2 = (templateLoop f ts sugg sugg made).1 ∧
      (templateLoop f ts sugg sugg made).1.Nodup := by
  induction ts with
  | nil => intro sugg made h; exact ⟨rfl, h⟩
  | cons t rest ih =>
    intro sugg made h
    by_cases h3 : 3 ≤ made
    · rw [templateLoop_cons_stop f t rest sugg sugg made h3]; exact ⟨rfl, h⟩
    · by_cases hdup : t ++ f ∈ sugg
      · rw [templateLoop_cons_dup f t rest sugg sugg made h3 hdup]; exact ih sugg made h
      · rw [templateLoop_cons_new f t rest sugg sugg made h3 hdup]
        refine ih (sugg ++ [t ++ f]) (made + 1) ?_
        simp [List.nodup_append, h, hdup]

theorem keywordLoop_invariant (ks : List String) :
    ∀ sugg : List String, sugg.Nodup →
      (keywordLoop ks sugg sugg).2 = (keywordLoop ks sugg sugg).1 ∧
      (keywordLoop ks sugg sugg).1.Nodup := by
  induction ks with
  | nil => intro sugg h; exact ⟨rfl, h⟩
  | cons k rest ih =>
    intro sugg h
    simp only [keywordLoop]
    obtain ⟨heq, hnd⟩ := templateLoop_invariant (formatKeyword k) suggestion_templates sugg 0 h
    rw [heq]
    exact ih _ hnd

/-- C3: one keyword's template pass adds at most 3 titles to the accumulated
list, and the whole result of `generate_suggestions` has at most 3 times as
many entries as the ranked keyword list, hence at most 15. -/
theorem suggestions_bounded (store : TaskStore) :
    (∀ (f : String) (sugg gen : List String),
      (templateLoop f suggestion_templates sugg gen 0).1.length ≤ sugg.length + 3) ∧
    (generate_suggestions store).length ≤
      3 * (most_common_5 (all_keywords store)).length ∧
    (generate_suggestions store).length ≤ 15 := by
  have hone : ∀ (f : String) (sugg gen : List String),
      (templateLoop f suggestion_templates sugg gen 0).1.length ≤ sugg.length + 3 := by
    intro f sugg gen
    have := templateLoop_length_le f suggestion_templates sugg gen 0
    omega
  have htop : (most_common_5 (all_keywords store)).length ≤ 5 := by
    have := List.length_take 5 (sortDesc (fun k => (all_keywords store).count k)
      (distinctKeys (all_keywords store)))
    simp only [most_common_5]
    omega
  have hmain : (generate_suggestions store).length ≤
      3 * (most_common_5 (all_keywords store)).length := by
    unfold generate_suggestions
    split
    · simp
    · split
      · simp
      · split
        · simp
        · have := keywordLoop_length_le (most_common_5 (all_keywords store)) [] []
          simp only [List.length_nil] at this
          omega
  exact ⟨hone, hmain, by omega⟩

/-- C4: the suggestion titles returned by one call to `generate_suggestions`
are pairwise distinct. -/
theorem generate_suggestions_nodup (store : TaskStore) :
    (generate_suggestions store).Nodup := by
  unfold generate_suggestions
  split
  · exact List.nodup_nil
  · split
    · exact List.nodup_nil
    · split
      · exact List.nodup_nil
      · exact (keywordLoop_invariant (most_common_5 (all_keywords store)) [] List.nodup_nil).2

/-- Spec-side extractor, written from the spec's words, for the refinement
claim C5: the whitespace-separated tokens of the lowercased input — after
every character that is neither a word character nor whitespace has been
replaced by a space — whose length is strictly greater than 2 and which are
not stop words, in left-to-right order, duplicates preserved. -/
def extract_keywords_spec (text : String) : List String :=
  ((wordsAux [] ((text.data.map Char.toLower).map
      (fun c => if isWordChar c || c.isWhitespace then c else ' '))).map
    String.mk).filter
    (fun w => decide (2 < w.length) && decide (w ∉ stop_words))

/-- C5: `extract_keywords` returns exactly the whitespace-separated tokens of
the cleaned lowercased input of length greater than 2 that are not among the
17 stop words, in order with duplicates; and extracting
"the and has had a an it" yields the empty sequence. -/
theorem extract_keywords_correct (text : String) :
    extract_keywords text = extract_keywords_spec text ∧
    stop_words.length = 17 ∧
    extract_keywords "the and has had a an it" = [] := by
  refine ⟨?_, rfl, by decide⟩
  by_cases h : text = ""
  · subst h; rfl
  · simp only [extract_keywords, extract_keywords_spec, cleanText, if_neg h]

/-- C6: when the store holds zero non-null titles, `generate_suggestions`
returns the empty list whatever the descriptions are: the result does not
depend on the description list. -/
theorem generate_suggestions_no_titles (descriptions : List String) :
    generate_suggestions ⟨[], descriptions⟩ = [] := rfl

/-- C7: inside the template loop, a candidate title already among the produced
titles is skipped: nothing is emitted, the per-keyword counter is unchanged,
and iteration proceeds with the remaining templates. -/
theorem templateLoop_skips_duplicate (f t : String) (rest sugg gen : List String)
    (made : Nat) (hmade : made < 3) (hdup : t ++ f ∈ gen) :
    templateLoop f (t :: rest) sugg gen made = templateLoop f rest sugg gen made := by
  have h3 : ¬ 3 ≤ made := by omega
  simp [templateLoop, h3, hdup]

/-- Witness for C7: at a concrete duplicate candidate the loop leaves the
suggestion list and the counter unchanged and moves to the next template. -/
theorem templateLoop_skips_duplicate_witness :
    0 < 3 ∧ "Follow-up on " ++ "Budget" ∈ ["Follow-up on Budget"] ∧
    templateLoop "Budget" ("Follow-up on " :: ["Finalize "]) [] ["Follow-up on Budget"] 0 =
      templateLoop "Budget" ["Finalize "] [] ["Follow-up on Budget"] 0 :=
  ⟨by decide, by decide,
    templateLoop_skips_duplicate "Budget" "Follow-up on " ["Finalize "] []
      ["Follow-up on Budget"] 0 (by decide) (by decide)⟩

/-- C8: the keyword "project-plan" formats to "Project Plan" (hyphen parts
capitalized, joined by single spaces), and substituting it into the template
"Finalize {}" — modelled by its fixed text `"Finalize "`, a member of the
template list — yields "Finalize Project Plan". -/
theorem format_project_plan :
    formatKeyword "project-plan" = "Project Plan" ∧
    "Finalize " ∈ suggestion_templates ∧
    "Finalize " ++ formatKeyword "project-plan" = "Finalize Project Plan" :=
  ⟨by decide, by decide, by decide⟩

/-- The concrete store of claim C2: three titles, no descriptions. -/
def c2_store : TaskStore :=
  ⟨["Prepare budget report", "Prepare budget report", "Review budget numbers"], []⟩

/-- C2: on the three-title budget store, "budget" is ranked first with count
3, the first three suggestions are exactly the three budget titles in template
order, and no suggestion built from the keyword "budget" appears later in the
result. -/
theorem budget_scenario :
    (most_common_5 (all_keywords c2_store)).head? = some "budget" ∧
    (all_keywords c2_store).count "budget" = 3 ∧
    (generate_suggestions c2_store).take 3 =
      ["Follow-up on Budget", "Finalize Budget", "Plan next steps for Budget"] ∧
    ∀ t ∈ suggestion_templates, t ++ "Budget" ∉ (generate_suggestions c2_store).drop 3 :=
  ⟨by decide, by decide, by decide, by decide⟩

/-- Witness for C2: a concrete remaining template yields no budget suggestion
beyond the first three. -/
theorem budget_scenario_witness :
    "Schedule meeting for " ∈ suggestion_templates ∧
    "Schedule meeting for " ++ "Budget" ∉ (generate_suggestions c2_store).drop 3 :=
  ⟨by decide, budget_scenario.2.2.2 "Schedule meeting for " (by decide)⟩

/-! ### Characters of extracted keywords are word characters -/

theorem wordsAux_chars (l : List Char) :
    ∀ cur : List Char, (∀ c ∈ cur, c.isWhitespace = false) →
      ∀ w ∈ wordsAux cur l, ∀ c ∈ w, (c ∈ cur ∨ c ∈ l) ∧ c.isWhitespace = false := by
  induction l with
  | nil =>
    intro cur hcur w hw c hc
    by_cases h : cur.isEmpty
    · simp [wordsAux, h] at hw
    · simp [wordsAux, h] at hw
      subst hw
      have hcc : c ∈ cur := List.mem_reverse.mp hc
      exact ⟨Or.inl hcc, hcur c hcc⟩
  | cons d cs ih =>
    intro cur hcur w hw c hc
    by_cases hd : d.isWhitespace
    · by_cases hemp : cur.isEmpty
      · simp [wordsAux, hd, hemp] at hw
        obtain ⟨hm, hnw⟩ := ih [] (by intro x hx; simp at hx) w hw c hc
        rcases hm with hx | hx
        · simp at hx
        · exact ⟨Or.inr (List.mem_cons_of_mem d hx), hnw⟩
      · simp [wordsAux, hd, hemp] at hw
        rcases hw with rfl | hw
        · have hcc : c ∈ cur := List.mem_reverse.mp hc
          exact ⟨Or.inl hcc, hcur c hcc⟩
        · obtain ⟨hm, hnw⟩ := ih [] (by intro x hx; simp at hx) w hw c hc
          rcases hm with hx | hx
          · simp at hx
          · exact ⟨Or.inr (List.mem_cons_of_mem d hx), hnw⟩
    · simp [wordsAux, hd] at hw
      rw [Bool.not_eq_true] at hd
      have hcur' : ∀ x ∈ d :: cur, x.isWhitespace = false := by
        intro x hx
        rcases List.mem_cons.mp hx with rfl | hx
        · exact hd
        · exact hcur x hx
      obtain ⟨hm, hnw⟩ := ih (d :: cur) hcur' w hw c hc
      rcases hm with hx | hx
      · rcases List.mem_cons.mp hx with rfl | hx
        · exact ⟨Or.inr (List.mem_cons_self _ _), hnw⟩
        · exact ⟨Or.inl hx, hnw⟩
      · exact ⟨Or.inr (List.mem_cons_of_mem d hx), hnw⟩

theorem cleanText_mem (text : String) (c : Char) (hc : c ∈ cleanText text)
    (hws : c.isWhitespace = false) : isWordChar c = true := by
  unfold cleanText at hc
  rcases List.mem_map.mp hc with ⟨d, _, hdc⟩
  by_cases h : isWordChar d || d.isWhitespace
  · rw [if_pos h] at hdc
    subst hdc
    have h' : isWordChar d = true ∨ d.isWhitespace = true := by simpa using h
    rcases h' with h1 | h2
    · exact h1
    · rw [hws] at h2; exact absurd h2 (by decide)
  · rw [if_neg h] at hdc
    subst hdc
    exact absurd hws (by decide)

theorem extract_keywords_chars (text kw : String) (hkw : kw ∈ extract_keywords text) :
    ∀ c ∈ kw.data, isWordChar c = true := by
  intro c hc
  unfold extract_keywords at hkw
  by_cases ht : text = ""
  · rw [if_pos ht] at hkw; simp at hkw
  · rw [if_neg ht] at hkw
    have h1 := (List.mem_filter.mp hkw).1
    rcases List.mem_map.mp h1 with ⟨w, hw, rfl⟩
    obtain ⟨hm, hnw⟩ :=
      wordsAux_chars (cleanText text) [] (by intro x hx; simp at hx) w hw c hc
    rcases hm with hx | hx
    · simp at hx
    · exact cleanText_mem text c hx hnw

theorem splitCharAux_no_sep (sep : Char) (l : List Char) :
    ∀ cur : List Char, sep ∉ l → splitCharAux sep cur l = [cur.reverse ++ l] := by
  induction l with
  | nil => intro cur _; simp [splitCharAux]
  | cons c cs ih =>
    intro cur h
    have hc : ¬ c = sep := by
      rintro rfl; exact h (List.mem_cons_self _ _)
    have hcs : sep ∉ cs := fun hx => h (List.mem_cons_of_mem _ hx)
    simp [splitCharAux, hc, ih (c :: cur) hcs]

theorem formatKeyword_no_hyphen (kw : String) (h : '-' ∉ kw.data) :
    formatKeyword kw = String.mk (capitalize kw.data) := by
  unfold formatKeyword
  rw [splitCharAux_no_sep '-' kw.data [] h]
  rfl

/-- C10: every keyword produced by `extract_keywords` consists of word
characters only, hence contains no hyphen, so the hyphen-splitting formatting
step degenerates to capitalizing the whole keyword; in particular the
multi-part string "project-plan" is never an extracted keyword. -/
theorem extract_keywords_hyphen_free (text : String) :
    (∀ kw ∈ extract_keywords text, '-' ∉ kw.data ∧
      formatKeyword kw = String.mk (capitalize kw.data)) ∧
    "project-plan" ∉ extract_keywords text := by
  have main : ∀ kw ∈ extract_keywords text, '-' ∉ kw.data := by
    intro kw hkw hmem
    have := extract_keywords_chars text kw hkw '-' hmem
    exact absurd this (by decide)
  refine ⟨fun kw hkw => ⟨main kw hkw, formatKeyword_no_hyphen kw (main kw hkw)⟩, ?_⟩
  intro hmem
  exact main _ hmem (by decide)

/-- Witness for C10: on a concrete text, the extracted keyword "budget" is
hyphen-free and formats by plain capitalization. -/
theorem extract_keywords_hyphen_free_witness :
    "budget" ∈ extract_keywords "project-plan budget" ∧
    '-' ∉ "budget".data ∧
    formatKeyword "budget" = String.mk (capitalize "budget".data) :=
  ⟨by decide,
    (extract_keywords_hyphen_free "project-plan budget").1 "budget" (by decide)⟩

/-! ### The first ranked keyword always yields exactly three fresh titles -/

theorem str_append_right_cancel {s t k : String} (h : s ++ k = t ++ k) : s = t := by
  have hd : s.data ++ k.data = t.data ++ k.data := by
    rw [← String.data_append, ← String.data_append, h]
  have hst := List.append_cancel_right hd
  cases s; cases t
  exact congrArg String.mk hst

theorem templateLoop_first (f : String) :
    templateLoop f suggestion_templates [] [] 0 =
      (["Follow-up on " ++ f, "Finalize " ++ f, "Plan next steps for " ++ f],
       ["Follow-up on " ++ f, "Finalize " ++ f, "Plan next steps for " ++ f]) := by
  have ne21 : "Finalize " ++ f ≠ "Follow-up on " ++ f :=
    fun h => absurd (str_append_right_cancel h) (by decide)
  have ne31 : "Plan next steps for " ++ f ≠ "Follow-up on " ++ f :=
    fun h => absurd (str_append_right_cancel h) (by decide)
  have ne32 : "Plan next steps for " ++ f ≠ "Finalize " ++ f :=
    fun h => absurd (str_append_right_cancel h) (by decide)
  rw [show suggestion_templates = "Follow-up on " :: "Finalize " :: "Plan next steps for " ::
      "Schedule meeting for " :: "Prepare report regarding " :: "Start working on " :: []
    from rfl]
  rw [templateLoop_cons_new _ _ _ _ _ _ (by omega) (by simp)]
  rw [templateLoop_cons_new _ _ _ _ _ _ (by omega) (by simp [ne21])]
  rw [templateLoop_cons_new _ _ _ _ _ _ (by omega) (by simp [ne31, ne32])]
  rw [templateLoop_cons_stop _ _ _ _ _ _ (by omega)]
  simp

/-- C9: the six templates applied to any one formatted keyword give six
pairwise-distinct titles, so the first ranked keyword — processed against an
empty produced-title set — emits exactly 3 titles; hence a non-empty result of
`generate_suggestions` has at least 3 entries, and the smart-suggestions
endpoint always answers with at least 3 suggestions. -/
theorem suggestions_min_three (store : TaskStore) :
    (∀ f : String, (suggestion_templates.map (fun t => t ++ f)).Nodup) ∧
    (∀ f : String, (templateLoop f suggestion_templates [] [] 0).1.length = 3) ∧
    (generate_suggestions store ≠ [] → 3 ≤ (generate_suggestions store).length) ∧
    3 ≤ (get_smart_suggestions store).length := by
  have hthree : ∀ f : String,
      (templateLoop f suggestion_templates [] [] 0).1.length = 3 := by
    intro f; rw [templateLoop_first]; rfl
  have hmain : generate_suggestions store ≠ [] →
      3 ≤ (generate_suggestions store).length := by
    intro hne
    by_cases h1 : store.titles = []
    · exact absurd (by simp [generate_suggestions, h1]) hne
    · by_cases h2 : all_keywords store = []
      · exact absurd (by simp [generate_suggestions, h1, h2]) hne
      · by_cases h3 : most_common_5 (all_keywords store) = []
        · exact absurd (by simp [generate_suggestions, h1, h2, h3]) hne
        · have hval : generate_suggestions store =
              (keywordLoop (most_common_5 (all_keywords store)) [] []).1 := by
            simp [generate_suggestions, h1, h2, h3]
          obtain ⟨k, rest, hk⟩ := List.exists_cons_of_ne_nil h3
          rw [hval, hk]
          simp only [keywordLoop]
          have hmono := keywordLoop_length_mono rest
            (templateLoop (formatKeyword k) suggestion_templates [] [] 0).1
            (templateLoop (formatKeyword k) suggestion_templates [] [] 0).2
          have h3l := hthree (formatKeyword k)
          omega
  refine ⟨?_, hthree, hmain, ?_⟩
  · intro f
    refine List.Nodup.map ?_ (by decide)
    intro a b hab
    exact str_append_right_cancel hab
  · by_cases hs : generate_suggestions store = []
    · simp [get_smart_suggestions, hs, default_suggestions]
    · have := hmain hs
      simp only [get_smart_suggestions, if_neg hs]
      exact this

/-- Witness for C9: a one-title store yields a non-empty result of length at
least 3. -/
theorem suggestions_min_three_witness :
    generate_suggestions ⟨["Prepare budget report"], []⟩ ≠ [] ∧
    3 ≤ (generate_suggestions ⟨["Prepare budget report"], []⟩).length :=
  ⟨by decide,
    (suggestions_min_three ⟨["Prepare budget report"], []⟩).2.2.1 (by decide)⟩

/-! ### Correctness of the ranking: stable top-5 selection -/

theorem insertDesc_mem (cnt : String → Nat) (a x : String) (l : List String) :
    x ∈ insertDesc cnt a l ↔ x = a ∨ x ∈ l := by
  induction l with
  | nil => simp [insertDesc]
  | cons b m ih =>
    by_cases h : cnt b ≤ cnt a
    · simp only [insertDesc]
      rw [if_pos h]
      simp
    · simp only [insertDesc]
      rw [if_neg h]
      simp only [List.mem_cons, ih]
      tauto

theorem insertDesc_perm (cnt : String → Nat) (a : String) (l : List String) :
    (insertDesc cnt a l).Perm (a :: l) := by
  induction l with
  | nil => exact List.Perm.refl _
  | cons b m ih =>
    by_cases h : cnt b ≤ cnt a
    · simp only [insertDesc]
      rw [if_pos h]
    · simp only [insertDesc]
      rw [if_neg h]
      exact (ih.cons b).trans (List.Perm.swap a b m)

theorem sortDesc_perm (cnt : String → Nat) (l : List String) :
    (sortDesc cnt l).Perm l := by
  induction l with
  | nil => exact List.Perm.refl _
  | cons a m ih =>
    simp only [sortDesc]
    exact (insertDesc_perm cnt a (sortDesc cnt m)).trans (ih.cons a)

theorem insertDesc_pairwise (cnt : String → Nat) (Q : String → String → Prop)
    (a : String) (l : List String)
    (hl : l.Pairwise (fun x y => cnt y < cnt x ∨ (cnt x = cnt y ∧ Q x y)))
    (ha : ∀ b ∈ l, cnt a = cnt b → Q a b) :
    (insertDesc cnt a l).Pairwise
      (fun x y => cnt y < cnt x ∨ (cnt x = cnt y ∧ Q x y)) := by
  induction l with
  | nil => simp [insertDesc]
  | cons b m ih =>
    rcases List.pairwise_cons.mp hl with ⟨hb, hm⟩
    by_cases h : cnt b ≤ cnt a
    · simp only [insertDesc]
      rw [if_pos h]
      refine List.pairwise_cons.mpr ⟨?_, hl⟩
      intro x hx
      rcases List.mem_cons.mp hx with rfl | hx
      · rcases Nat.lt_or_ge (cnt x) (cnt a) with hlt | hge
        · exact Or.inl hlt
        · exact Or.inr ⟨Nat.le_antisymm hge h,
            ha x (List.mem_cons_self _ _) (Nat.le_antisymm hge h)⟩
      · rcases hb x hx with hlt | ⟨heq, _⟩
        · exact Or.inl (Nat.lt_of_lt_of_le hlt h)
        · rcases Nat.lt_or_ge (cnt x) (cnt a) with hlt | hge
          · exact Or.inl hlt
          · have hxa : cnt a = cnt x := Nat.le_antisymm hge (heq ▸ h)
            exact Or.inr ⟨hxa, ha x (List.mem_cons_of_mem b hx) hxa⟩
    · simp only [insertDesc]
      rw [if_neg h]
      refine List.pairwise_cons.mpr
        ⟨?_, ih hm (fun x hx hq => ha x (List.mem_cons_of_mem b hx) hq)⟩
      intro x hx
      rcases (insertDesc_mem cnt a x m).mp hx with rfl | hx
      · exact Or.inl (Nat.lt_of_not_le h)
      · exact hb x hx

theorem sortDesc_pairwise (cnt : String → Nat) (Q : String → String → Prop)
    (l : List String) (hl : l.Pairwise (fun x y => cnt x = cnt y → Q x y)) :
    (sortDesc cnt l).Pairwise
      (fun x y => cnt y < cnt x ∨ (cnt x = cnt y ∧ Q x y)) := by
  induction l with
  | nil => simp [sortDesc]
  | cons a m ih =>
    rcases List.pairwise_cons.mp hl with ⟨ha, hm⟩
    simp only [sortDesc]
    refine insertDesc_pairwise cnt Q a (sortDesc cnt m) (ih hm) ?_
    intro b hb heq
    exact ha b ((sortDesc_perm cnt m).mem_iff.mp hb) heq

/-! ### Distinct keywords: membership, no duplicates, first-occurrence order -/

theorem distinctKeys_mem (l : List String) (x : String) :
    x ∈ distinctKeys l ↔ x ∈ l := by
  induction l with
  | nil => simp [distinctKeys]
  | cons k m ih =>
    simp only [distinctKeys, List.mem_cons, List.mem_filter, bne_iff_ne]
    constructor
    · rintro (rfl | ⟨hx, _⟩)
      · exact Or.inl rfl
      · exact Or.inr (ih.mp hx)
    · rintro (rfl | hx)
      · exact Or.inl rfl
      · by_cases hxk : x = k
        · exact Or.inl hxk
        · exact Or.inr ⟨ih.mpr hx, hxk⟩

theorem distinctKeys_nodup (l : List String) : (distinctKeys l).Nodup := by
  induction l with
  | nil => simp [distinctKeys]
  | cons k m ih =>
    simp only [distinctKeys]
    refine List.Pairwise.cons ?_ (ih.filter _)
    intro y hy
    have hyk := (List.mem_filter.mp hy).2
    simp only [bne_iff_ne] at hyk
    exact hyk.symm

theorem distinctKeys_indexOf (l : List String) :
    (distinctKeys l).Pairwise (fun x y => l.indexOf x < l.indexOf y) := by
  induction l with
  | nil => simp [distinctKeys]
  | cons k m ih =>
    simp only [distinctKeys]
    refine List.Pairwise.cons ?_ ?_
    · intro y hy
      have hyk := (List.mem_filter.mp hy).2
      simp only [bne_iff_ne] at hyk
      rw [List.indexOf_cons_self, List.indexOf_cons_ne m hyk.symm]
      exact Nat.succ_pos _
    · refine (ih.filter (fun x => x != k)).imp_of_mem ?_
      intro a b ha hb hab
      have hak := (List.mem_filter.mp ha).2
      have hbk := (List.mem_filter.mp hb).2
      simp only [bne_iff_ne] at hak hbk
      rw [List.indexOf_cons_ne m hak.symm, List.indexOf_cons_ne m hbk.symm]
      exact Nat.succ_lt_succ hab

/-- C1: the ranked keyword list `most_common_5 kws` used by
`generate_suggestions` holds `min 5 d` keywords, where `d` is the number of
distinct keywords of the combined sequence `kws` (so all of them when fewer
than 5 exist); its entries are distinct keywords of `kws`, listed in
decreasing order of occurrence count with ties broken by first-occurrence
position; and every keyword left out is beaten by every keyword selected,
either by a strictly smaller count or, at equal counts, by a later first
occurrence. -/
theorem most_common_5_spec (kws : List String) :
    (most_common_5 kws).length = min 5 (distinctKeys kws).length ∧
    (most_common_5 kws).Nodup ∧
    (∀ k ∈ most_common_5 kws, k ∈ kws) ∧
    (∀ y ∈ kws, (distinctKeys kws).length ≤ 5 → y ∈ most_common_5 kws) ∧
    (most_common_5 kws).Pairwise (fun x y =>
      kws.count y < kws.count x ∨
        (kws.count x = kws.count y ∧ kws.indexOf x < kws.indexOf y)) ∧
    (∀ x ∈ most_common_5 kws, ∀ y ∈ kws, y ∉ most_common_5 kws →
      kws.count y < kws.count x ∨
        (kws.count x = kws.count y ∧ kws.indexOf x < kws.indexOf y)) := by
  have hperm := sortDesc_perm (fun k => kws.count k) (distinctKeys kws)
  have hpair : (sortDesc (fun k => kws.count k) (distinctKeys kws)).Pairwise
      (fun x y => kws.count y < kws.count x ∨
        (kws.count x = kws.count y ∧ kws.indexOf x < kws.indexOf y)) :=
    sortDesc_pairwise _ _ _
      ((distinctKeys_indexOf kws).imp (fun {a b} h => fun _ => h))
  refine ⟨?_, ?_, ?_, ?_, ?_, ?_⟩
  · simp only [most_common_5, List.length_take, hperm.length_eq]
  · exact (hperm.nodup_iff.mpr (distinctKeys_nodup kws)).sublist
      (List.take_sublist 5 _)
  · intro k hk
    exact (distinctKeys_mem kws k).mp
      (hperm.mem_iff.mp (List.take_subset 5 _ hk))
  · intro y hy hle
    have hyS := hperm.mem_iff.mpr ((distinctKeys_mem kws y).mpr hy)
    simp only [most_common_5]
    rw [List.take_of_length_le (by rw [hperm.length_eq]; omega)]
    exact hyS
  · exact hpair.sublist (List.take_sublist 5 _)
  · intro x hx y hy hyn
    simp only [most_common_5] at hx hyn
    have hyS := hperm.mem_iff.mpr ((distinctKeys_mem kws y).mpr hy)
    rw [← List.take_append_drop 5
      (sortDesc (fun k => kws.count k) (distinctKeys kws))] at hyS hpair
    rcases List.mem_append.mp hyS with h | h
    · exact absurd h hyn
    · exact (List.pairwise_append.mp hpair).2.2 x hx y h

/-- Witness for C1: on a concrete keyword sequence, the top keyword list
contains an extracted keyword of the sequence. -/
theorem most_common_5_spec_witness :
    "budget" ∈ ["budget", "plan", "budget"] ∧
    "budget" ∈ most_common_5 ["budget", "plan", "budget"] :=
  ⟨by decide,
    (most_common_5_spec ["budget", "plan", "budget"]).2.2.2.1 "budget"
      (by decide) (by decide)⟩

example : extract_keywords "Prepare budget report" = ["prepare", "budget", "report"] := by decide

example : extract_keywords "the and has had a an it" = [] := by decide

example : formatKeyword "project-plan" = "Project Plan" := by decide

example :
    generate_suggestions ⟨["Prepare budget report", "Prepare budget report",
      "Review budget numbers"], []⟩ =
    ["Follow-up on Budget", "Finalize Budget", "Plan next steps for Budget",
     "Follow-up on Prepare", "Finalize Prepare", "Plan next steps for Prepare",
     "Follow-up on Report", "Finalize Report", "Plan next steps for Report",
     "Follow-up on Review", "Finalize Review", "Plan next steps for Review",
     "Follow-up on Numbers", "Finalize Numbers", "Plan next steps for Numbers"] := by decide

end TaskAPI
